import Mathlib

/-!
Shallow embedding of the CV/job matching engine of the job-market-explorer
repository (src/analysis/matching.py), the module imported by the
application (src/app.py).  The legacy modules src/analysis/cv_matching.py
and src/analysis/semantic_matching.py are imported nowhere; divergences of
those legacy copies are noted in comments where relevant.

Python values reaching the normalization helpers are modelled by the
inductive type `PyVal`; the embedding-model cosine similarity is abstracted
as a parameter `cos : String → String → ℚ` (the code calls a sentence
transformer; every claim below holds for an arbitrary similarity
function).  Python `round(x, n)` is modelled with Mathlib's `round`
(half-up instead of the float half-to-even of CPython; no claim depends on
tie behaviour).  A Python `dict` of weights is a function
`String → Option ℚ`; `weights[k]` raising `KeyError` is modelled by the
whole call returning `none`.
-/

namespace JobMarket

/-- Model of a dynamically typed Python value, as far as the matching
engine inspects one: strings, lists, numbers, booleans and None. -/
inductive PyVal where
  | none
  | str (s : String)
  | int (n : Int)
  | bool (b : Bool)
  | list (xs : List PyVal)

/-- The ASCII whitespace class of the regex \s used in norm_text
(space, tab, newline, carriage return, vertical tab, form feed). -/
def wsChar (c : Char) : Bool :=
  c = ' ' || c = '\t' || c = '\n' || c = '\r' || c = '\x0b' || c = '\x0c'

/-- Model of Python str.strip(): drop leading and trailing whitespace. -/
def stripChars (l : List Char) : List Char :=
  ((l.dropWhile wsChar).reverse.dropWhile wsChar).reverse

/-- Model of Python str.lower() on one character (ASCII range, as in the
data handled by the engine): map A..Z (codepoints 65..90) down by 32. -/
def lowerChar (c : Char) : Char :=
  if 65 ≤ c.toNat ∧ c.toNat ≤ 90 then Char.ofNat (c.toNat + 32) else c

/-- Model of Python str.lower() on a string's characters. -/
def lowerChars (l : List Char) : List Char := l.map lowerChar

/-- Single pass of re.sub(r"\s+", " ", s): emit one space at the first
character of each whitespace run (the flag records whether the previous
character was whitespace), keep every other character. -/
def collapseAux : Bool → List Char → List Char
  | _, [] => []
  | prevWS, c :: rest =>
    if wsChar c then
      if prevWS then collapseAux true rest
      else ' ' :: collapseAux true rest
    else c :: collapseAux false rest

/-- Model of re.sub(r"\s+", " ", s): replace every maximal whitespace run
by a single space. -/
def collapseWS (l : List Char) : List Char := collapseAux false l

/-- norm_text of matching.py restricted to an actual string argument:
strip, lower, collapse whitespace runs. -/
def norm_text_str (s : String) : String :=
  ⟨collapseWS (lowerChars (stripChars s.data))⟩

/-- norm_text of matching.py: lowercase plus light cleanup, returning ""
for any non-string argument. -/
def norm_text (v : PyVal) : String :=
  match v with
  | .str s => norm_text_str s
  | _ => ""

/-- The body of the loop of norm_list of matching.py: keep the normalized
form of each string element when it is non-empty, in order. -/
def normItem (v : PyVal) : Option String :=
  match v with
  | .str s =>
    let vv := norm_text_str s
    if vv = "" then Option.none else some vv
  | _ => Option.none

/-- norm_list of matching.py: a list of lowercase trimmed non-empty
strings, empty for any non-list argument. -/
def norm_list (x : PyVal) : List String :=
  match x with
  | .list xs => xs.filterMap normItem
  | _ => []

/-- to_set of matching.py: the set of the normalized list. -/
def to_set (x : PyVal) : Finset String :=
  (norm_list x).toFinset

/-- coverage of matching.py: exact coverage ratio, 1.0 when the
requirement set is empty. -/
def coverage (cv_set job_set : Finset String) : ℚ :=
  if job_set = ∅ then 1
  else ((cv_set ∩ job_set).card : ℚ) / (job_set.card : ℚ)

/-- Model of Python round(x, 1). -/
def round1 (q : ℚ) : ℚ := ((round (q * 10) : ℤ) : ℚ) / 10

/-- Model of Python round(x, 2). -/
def round2 (q : ℚ) : ℚ := ((round (q * 100) : ℤ) : ℚ) / 100

/-- Model of Python round(x, 3). -/
def round3 (q : ℚ) : ℚ := ((round (q * 1000) : ℤ) : ℚ) / 1000

/-- Result dictionary of semantic_overlap of matching.py. -/
structure OverlapResult where
  matched : List String
  missing : List String
  coverage : ℚ
deriving DecidableEq, Repr

/-- semantic_overlap of matching.py.  The item-comparison
`sim[i].max() >= threshold` (maximum cosine similarity of a job item
against all CV items, which is only reached with cv nonempty) is modelled
as: some CV item has similarity at least threshold.  The model cosine is
the abstract parameter `cos`. -/
def semantic_overlap (cos : String → String → ℚ)
    (cv_items job_items : List PyVal) (threshold : ℚ) : OverlapResult :=
  let cv := cv_items.filterMap normItem
  let job := job_items.filterMap normItem
  if job = [] then ⟨[], [], 1⟩
  else if cv = [] then ⟨[], job, 0⟩
  else
    let matched := job.filter (fun j => cv.any (fun c => threshold ≤ cos j c))
    let missing := job.filter (fun j => !cv.any (fun c => threshold ≤ cos j c))
    let cov : ℚ := if job = [] then 1 else (matched.length : ℚ) / (job.length : ℚ)
    ⟨matched, missing, round2 cov⟩

/-- semantic_similarity_text of matching.py: description-level cosine
similarity, 0.0 when either normalized text is empty, rounded to three
decimals otherwise. -/
def semantic_similarity_text (cos : String → String → ℚ)
    (cv_text job_text : String) : ℚ :=
  let a := norm_text_str cv_text
  let b := norm_text_str job_text
  if a = "" ∨ b = "" then 0 else round3 (cos a b)

/-- CV dictionary as read by match_cv_job (absent keys are PyVal.none,
exactly what dict.get returns). -/
structure CVInput where
  skills_hard : PyVal := .none
  skills_soft : PyVal := .none
  languages : PyVal := .none
  text : PyVal := .none

/-- Job row as read by match_cv_job and match_cv_market. -/
structure JobInput where
  skills_hard_required : PyVal := .none
  skills_hard_optional : PyVal := .none
  skills_soft : PyVal := .none
  languages_required : PyVal := .none
  languages_optional : PyVal := .none
  description : PyVal := .none
  title : PyVal := .none
  company : PyVal := .none
  location : PyVal := .none
  source : PyVal := .none
  url : PyVal := .none

/-- Result dictionary of match_cv_job of matching.py. -/
structure MatchResult where
  score : ℚ
  hard_required_coverage : ℚ
  hard_optional_coverage : ℚ
  soft_coverage : ℚ
  languages_required_coverage : ℚ
  description_similarity : ℚ
  hard_required_missing : List String
  hard_optional_missing : List String
  soft_skills_missing : List String
  languages_required_missing : List String
  languages_optional_missing : List String
  used_semantic_skills : Bool
  skill_threshold : ℚ
  used_description_semantic : Bool
  weights : String → Option ℚ

/-- The default weights dictionary of match_cv_job. -/
def defaultWeights : String → Option ℚ := fun k =>
  if k = "hard_required" then some (45/100)
  else if k = "hard_optional" then some (15/100)
  else if k = "soft" then some (10/100)
  else if k = "languages" then some (10/100)
  else if k = "description" then some (20/100)
  else Option.none

/-- The five weight categories the score computation reads. -/
def recognizedKeys : List String :=
  ["hard_required", "hard_optional", "soft", "languages", "description"]

/-- The guard of the per-category semantic fallback in match_cv_job:
`use_semantic_skills` and `job_x_list and (len(job_x - cv_x) > 0)`. -/
def semGuard (use_semantic : Bool) (job_list : List String)
    (job_set cv_set : Finset String) : Bool :=
  use_semantic && !job_list.isEmpty && decide (0 < (job_set \ cv_set).card)

/-- Python sorted(set(l)) over strings. -/
def sortDedup (l : List String) : List String :=
  l.toFinset.sort (· ≤ ·)

/-- Python list(s) for a set s of strings.  CPython iterates a set in an
unspecified hash order; the engine only ever passes such lists onward into
sorted(set(...)), which is insensitive to the order, so the model fixes
the sorted enumeration. -/
def setToList (s : Finset String) : List String :=
  s.sort (· ≤ ·)

/-- The sem_x_detail local of match_cv_job for one fallback-eligible
category (hard required, hard optional, required languages all share this
logic): the semantic_overlap result when the guard fires, None
otherwise. -/
def resolvedDetail (cos : String → String → ℚ) (use_semantic : Bool)
    (st : ℚ) (cv_list job_list : List String) : Option OverlapResult :=
  if semGuard use_semantic job_list job_list.toFinset cv_list.toFinset then
    some (semantic_overlap cos (cv_list.map .str) (job_list.map .str) st)
  else Option.none

/-- The per-category coverage used in the score: the semantic fallback
coverage when it was computed, the exact coverage otherwise. -/
def resolvedCoverage (cos : String → String → ℚ) (use_semantic : Bool)
    (st : ℚ) (cv_list job_list : List String) : ℚ :=
  match resolvedDetail cos use_semantic st cv_list job_list with
  | some d => d.coverage
  | _ => coverage cv_list.toFinset job_list.toFinset

/-- The per-category missing list: the semantic fallback's missing list
when it was computed, the exact set difference otherwise. -/
def resolvedMissing (cos : String → String → ℚ) (use_semantic : Bool)
    (st : ℚ) (cv_list job_list : List String) : List String :=
  match resolvedDetail cos use_semantic st cv_list job_list with
  | some d => d.missing
  | _ => setToList (job_list.toFinset \ cv_list.toFinset)

/-- match_cv_job of matching.py.  The weights dict is a partial mapping;
accessing a missing key raises KeyError, modelled as the call returning
none (everything before the weighted total is pure, so an observer sees
either the full result dictionary or the exception).  The identical
exact-coverage/semantic-fallback treatment the source gives its three
eligible categories is factored through resolvedCoverage and
resolvedMissing above; soft skills and optional languages only ever get
the exact computation, as in the source. -/
def match_cv_job (cos : String → String → ℚ) (cv : CVInput) (job : JobInput)
    (use_semantic_skills : Bool) (skill_threshold : ℚ)
    (use_description_semantic : Bool)
    (weightsArg : Option (String → Option ℚ)) : Option MatchResult :=
  let weights := weightsArg.getD defaultWeights
  let hard_req := resolvedCoverage cos use_semantic_skills skill_threshold
    (norm_list cv.skills_hard) (norm_list job.skills_hard_required)
  let hard_opt := resolvedCoverage cos use_semantic_skills skill_threshold
    (norm_list cv.skills_hard) (norm_list job.skills_hard_optional)
  let soft_exact := coverage (norm_list cv.skills_soft).toFinset
    (norm_list job.skills_soft).toFinset
  let lang_req := resolvedCoverage cos use_semantic_skills skill_threshold
    (norm_list cv.languages) (norm_list job.languages_required)
  let desc_sim := if use_description_semantic then
      semantic_similarity_text cos (norm_text cv.text) (norm_text job.description)
    else 0
  do
  let w_hard_required ← weights "hard_required"
  let w_hard_optional ← weights "hard_optional"
  let w_soft ← weights "soft"
  let w_languages ← weights "languages"
  let w_description ← weights "description"
  let total := w_hard_required * hard_req + w_hard_optional * hard_opt
    + w_soft * soft_exact + w_languages * lang_req + w_description * desc_sim
  some {
    score := round1 (total * 100)
    hard_required_coverage := round2 hard_req
    hard_optional_coverage := round2 hard_opt
    soft_coverage := round2 soft_exact
    languages_required_coverage := round2 lang_req
    description_similarity := round3 desc_sim
    hard_required_missing := sortDedup (resolvedMissing cos use_semantic_skills
      skill_threshold (norm_list cv.skills_hard) (norm_list job.skills_hard_required))
    hard_optional_missing := sortDedup (resolvedMissing cos use_semantic_skills
      skill_threshold (norm_list cv.skills_hard) (norm_list job.skills_hard_optional))
    soft_skills_missing := sortDedup (setToList
      ((norm_list job.skills_soft).toFinset \ (norm_list cv.skills_soft).toFinset))
    languages_required_missing := sortDedup (resolvedMissing cos use_semantic_skills
      skill_threshold (norm_list cv.languages) (norm_list job.languages_required))
    languages_optional_missing := sortDedup (setToList
      ((norm_list job.languages_optional).toFinset \ (norm_list cv.languages).toFinset))
    used_semantic_skills := use_semantic_skills
    skill_threshold := skill_threshold
    used_description_semantic := use_description_semantic
    weights := weights }

/-- One row appended by match_cv_market: job summary fields plus the
match dictionary. -/
structure MarketRow where
  job_title : PyVal
  company : PyVal
  location : PyVal
  source : PyVal
  url : PyVal
  result : MatchResult

/-- Three-level descending sort key of match_cv_market:
(score, hard_required_coverage, description_similarity), lexicographic. -/
def rowKey (r : MarketRow) : Lex (ℚ × Lex (ℚ × ℚ)) :=
  toLex (r.result.score,
    toLex (r.result.hard_required_coverage, r.result.description_similarity))

/-- Row a may precede row b in the descending sort. -/
def rowGE (a b : MarketRow) : Prop := rowKey b ≤ rowKey a

instance : DecidableRel rowGE :=
  fun a b => inferInstanceAs (Decidable (rowKey b ≤ rowKey a))

instance : IsTrans MarketRow rowGE :=
  ⟨fun _ _ _ h1 h2 => le_trans h2 h1⟩

instance : IsTotal MarketRow rowGE :=
  ⟨fun a b => (le_total (rowKey b) (rowKey a)).elim Or.inl Or.inr⟩

/-- The accumulation loop of match_cv_market over df_jobs.iterrows():
evaluate each job in order, keep rows whose score reaches min_score; a
KeyError from match_cv_job aborts the whole call (none). -/
def marketLoop (cos : String → String → ℚ) (cv : CVInput)
    (min_score : ℚ) (use_semantic_skills : Bool) (skill_threshold : ℚ)
    (use_description_semantic : Bool)
    (weightsArg : Option (String → Option ℚ)) :
    List JobInput → Option (List MarketRow)
  | [] => some []
  | j :: rest => do
    let m ← match_cv_job cos cv j use_semantic_skills skill_threshold
      use_description_semantic weightsArg
    let tail ← marketLoop cos cv min_score use_semantic_skills skill_threshold
      use_description_semantic weightsArg rest
    if min_score ≤ m.score then
      some ({ job_title := j.title, company := j.company,
              location := j.location, source := j.source, url := j.url,
              result := m } :: tail)
    else
      some tail

/-- match_cv_market of matching.py: empty DataFrame when no row passed
the filter, otherwise the rows sorted descending by
(score, hard_required_coverage, description_similarity). -/
def match_cv_market (cos : String → String → ℚ) (cv : CVInput)
    (df_jobs : List JobInput) (min_score : ℚ) (use_semantic_skills : Bool)
    (skill_threshold : ℚ) (use_description_semantic : Bool)
    (weightsArg : Option (String → Option ℚ)) : Option (List MarketRow) := do
  let results ← marketLoop cos cv min_score use_semantic_skills
    skill_threshold use_description_semantic weightsArg df_jobs
  if results.isEmpty then some []
  else some (List.insertionSort rowGE results)

/-- A string is canonical when it is exactly what norm_text produces:
every character lowercase, every whitespace character a single space,
no whitespace at either end, and no two adjacent whitespace characters. -/
def Canonical (s : String) : Prop :=
  (∀ c ∈ s.data, lowerChar c = c) ∧
  (∀ c ∈ s.data, wsChar c = true → c = ' ') ∧
  (∀ c, s.data.head? = some c → wsChar c = false) ∧
  (∀ c, s.data.getLast? = some c → wsChar c = false) ∧
  List.Chain' (fun x y => ¬(wsChar x = true ∧ wsChar y = true)) s.data

/-- A constant zero similarity function (a concrete stand-in for the
embedding model in concrete evaluations). -/
def cos0 : String → String → ℚ := fun _ _ => 0

/-- A constant one-half similarity function. -/
def cosHalf : String → String → ℚ := fun _ _ => 1/2

/-- The weights dict of spec scenario 5: only the hard_required key. -/
def wOnlyHardRequired : String → Option ℚ := fun k =>
  if k = "hard_required" then some 1 else Option.none

/-- A weights dict carrying all five recognized categories,
hard_required at 1 and the rest at 0. -/
def wFive : String → Option ℚ := fun k =>
  if k = "hard_required" then some 1
  else if k = "hard_optional" then some 0
  else if k = "soft" then some 0
  else if k = "languages" then some 0
  else if k = "description" then some 0
  else Option.none

/-- wFive plus an unrecognized extra category. -/
def wFiveExtra : String → Option ℚ := fun k =>
  if k = "bogus_category" then some 99 else wFive k

/-- A weights dict whose five recognized values sum to 0.0106. -/
def wTiny : String → Option ℚ := fun k =>
  if k = "hard_required" then some (53/5000)
  else if k = "hard_optional" then some 0
  else if k = "soft" then some 0
  else if k = "languages" then some 0
  else if k = "description" then some 0
  else Option.none

/-- A CV listing the single hard skill "python". -/
def cvPython : CVInput := { skills_hard := .list [.str "python"] }

/-- A job requiring the single hard skill "python". -/
def jobPython : JobInput := { skills_hard_required := .list [.str "python"] }

/-- A CV with every field absent. -/
def cvEmpty : CVInput := {}

/-- A job with every field absent. -/
def jobEmpty : JobInput := {}

/-- A job requiring the single hard skill "x". -/
def jobX : JobInput := { skills_hard_required := .list [.str "x"] }

/-- Expected match result of cvEmpty against jobEmpty under default
weights with description semantics off: every category is vacuously
covered, score 0.8 × 100 = 80. -/
def resultEmpty : MatchResult :=
  ⟨80, 1, 1, 1, 1, 0, [], [], [], [], [], true, 3/4, false, defaultWeights⟩

/-- Expected market row for cvEmpty against jobEmpty. -/
def rowEmpty : MarketRow := ⟨.none, .none, .none, .none, .none, resultEmpty⟩

/-- Whitespace characters are one of the six ASCII whitespace codes. -/
theorem wsChar_cases (c : Char) (h : wsChar c = true) :
    c = ' ' ∨ c = '\t' ∨ c = '\n' ∨ c = '\r' ∨ c = '\x0b' ∨ c = '\x0c' := by
  have h2 := h
  simp only [wsChar, Bool.or_eq_true, decide_eq_true_eq] at h2
  tauto

/-- A character shifted down from the A..Z range is not whitespace. -/
theorem wsChar_ofNat_shift (n : ℕ) (h1 : 65 ≤ n) (h2 : n ≤ 90) :
    wsChar (Char.ofNat (n + 32)) = false := by
  interval_cases n <;> decide

/-- A character in the A..Z range is not whitespace. -/
theorem not_ws_of_upper (c : Char) (h : 65 ≤ c.toNat ∧ c.toNat ≤ 90) :
    wsChar c = false := by
  cases hw : wsChar c with
  | false => rfl
  | true =>
    exfalso
    rcases wsChar_cases c hw with h1 | h1 | h1 | h1 | h1 | h1 <;>
      subst h1 <;> revert h <;> decide

/-- Lowercasing preserves whether a character is whitespace. -/
theorem lowerChar_ws_eq (c : Char) : wsChar (lowerChar c) = wsChar c := by
  by_cases h : 65 ≤ c.toNat ∧ c.toNat ≤ 90
  · have h1 : lowerChar c = Char.ofNat (c.toNat + 32) := by
      unfold lowerChar
      rw [if_pos h]
    rw [h1, wsChar_ofNat_shift _ h.1 h.2, not_ws_of_upper _ h]
  · have h1 : lowerChar c = c := by
      unfold lowerChar
      rw [if_neg h]
    rw [h1]

/-- Lowercasing a character is idempotent. -/
theorem lowerChar_idem (c : Char) : lowerChar (lowerChar c) = lowerChar c := by
  by_cases h : 65 ≤ c.toNat ∧ c.toNat ≤ 90
  · have h1 : lowerChar c = Char.ofNat (c.toNat + 32) := by
      unfold lowerChar
      rw [if_pos h]
    rw [h1]
    obtain ⟨ha, hb⟩ := h
    generalize c.toNat = n at ha hb
    interval_cases n <;> decide
  · have h1 : lowerChar c = c := by
      unfold lowerChar
      rw [if_neg h]
    rw [h1]
    exact h1

/-- Characters of a collapsed list: either a non-whitespace character of
the input, or the single space emitted for a run. -/
theorem mem_collapseAux (b : Bool) (l : List Char) (c : Char)
    (hc : c ∈ collapseAux b l) : (c ∈ l ∧ wsChar c = false) ∨ c = ' ' := by
  induction l generalizing b with
  | nil => simp [collapseAux] at hc
  | cons d rest ih =>
    cases hw : wsChar d with
    | true =>
      cases b with
      | true =>
        have hh : collapseAux true (d :: rest) = collapseAux true rest := by
          simp [collapseAux, hw]
        rw [hh] at hc
        rcases ih true hc with ⟨h1, h2⟩ | h1
        · exact Or.inl ⟨List.mem_cons_of_mem _ h1, h2⟩
        · exact Or.inr h1
      | false =>
        have hh : collapseAux false (d :: rest) = ' ' :: collapseAux true rest := by
          simp [collapseAux, hw]
        rw [hh] at hc
        rcases List.mem_cons.mp hc with h1 | h1
        · exact Or.inr h1
        · rcases ih true h1 with ⟨h2, h3⟩ | h2
          · exact Or.inl ⟨List.mem_cons_of_mem _ h2, h3⟩
          · exact Or.inr h2
    | false =>
      have hh : collapseAux b (d :: rest) = d :: collapseAux false rest := by
        simp [collapseAux, hw]
      rw [hh] at hc
      rcases List.mem_cons.mp hc with h1 | h1
      · subst h1
        exact Or.inl ⟨List.mem_cons_self _ _, hw⟩
      · rcases ih false h1 with ⟨h2, h3⟩ | h2
        · exact Or.inl ⟨List.mem_cons_of_mem _ h2, h3⟩
        · exact Or.inr h2

/-- After a space was just emitted, the next collapsed character is not
whitespace. -/
theorem head_collapseAux_true (l : List Char) (c : Char)
    (h : (collapseAux true l).head? = some c) : wsChar c = false := by
  induction l with
  | nil => simp [collapseAux] at h
  | cons d rest ih =>
    cases hw : wsChar d with
    | true =>
      have hh : collapseAux true (d :: rest) = collapseAux true rest := by
        simp [collapseAux, hw]
      rw [hh] at h
      exact ih h
    | false =>
      have hh : collapseAux true (d :: rest) = d :: collapseAux false rest := by
        simp [collapseAux, hw]
      rw [hh] at h
      simp only [List.head?_cons, Option.some.injEq] at h
      exact h ▸ hw

/-- If the input starts with a non-whitespace character, so does the
collapsed output. -/
theorem head_collapseAux_false (l : List Char)
    (hl : ∀ c, l.head? = some c → wsChar c = false) (c : Char)
    (h : (collapseAux false l).head? = some c) : wsChar c = false := by
  cases l with
  | nil => simp [collapseAux] at h
  | cons d rest =>
    have hw : wsChar d = false := hl d rfl
    have hh : collapseAux false (d :: rest) = d :: collapseAux false rest := by
      simp [collapseAux, hw]
    rw [hh] at h
    simp only [List.head?_cons, Option.some.injEq] at h
    exact h ▸ hw

/-- The collapsed output never contains two adjacent whitespace
characters. -/
theorem chain_collapseAux (b : Bool) (l : List Char) :
    List.Chain' (fun x y => ¬(wsChar x = true ∧ wsChar y = true))
      (collapseAux b l) := by
  induction l generalizing b with
  | nil => simp [collapseAux]
  | cons d rest ih =>
    cases hw : wsChar d with
    | true =>
      cases b with
      | true =>
        have hh : collapseAux true (d :: rest) = collapseAux true rest := by
          simp [collapseAux, hw]
        rw [hh]
        exact ih true
      | false =>
        have hh : collapseAux false (d :: rest) = ' ' :: collapseAux true rest := by
          simp [collapseAux, hw]
        rw [hh]
        refine List.chain'_cons'.mpr ⟨?_, ih true⟩
        intro y hy
        have hws : wsChar y = false :=
          head_collapseAux_true rest y (Option.mem_def.mp hy)
        intro hcon
        rw [hws] at hcon
        exact Bool.false_ne_true hcon.2
    | false =>
      have hh : collapseAux b (d :: rest) = d :: collapseAux false rest := by
        simp [collapseAux, hw]
      rw [hh]
      refine List.chain'_cons'.mpr ⟨?_, ih false⟩
      intro y _ hcon
      rw [hw] at hcon
      exact Bool.false_ne_true hcon.1

/-- Collapsing preserves a non-whitespace last character. -/
theorem getLast_collapseAux (l : List Char) (c : Char)
    (hws : wsChar c = false) :
    ∀ b, l.getLast? = some c → (collapseAux b l).getLast? = some c := by
  induction l with
  | nil => intro b h; simp at h
  | cons d rest ih =>
    intro b h
    cases rest with
    | nil =>
      rw [List.getLast?_singleton] at h
      simp only [Option.some.injEq] at h
      subst h
      have hh : collapseAux b [d] = [d] := by
        simp [collapseAux, hws]
      rw [hh, List.getLast?_singleton]
    | cons e rest2 =>
      have h2 : (e :: rest2).getLast? = some c := by
        rw [← List.getLast?_cons_cons (a := d)]
        exact h
      cases hw : wsChar d with
      | true =>
        cases b with
        | true =>
          have hh : collapseAux true (d :: e :: rest2) = collapseAux true (e :: rest2) := by
            simp [collapseAux, hw]
          rw [hh]
          exact ih true h2
        | false =>
          have hh : collapseAux false (d :: e :: rest2)
              = ' ' :: collapseAux true (e :: rest2) := by
            simp [collapseAux, hw]
          rw [hh]
          have htail := ih true h2
          rw [List.getLast?_cons, htail]
          rfl
      | false =>
        have hh : collapseAux b (d :: e :: rest2)
            = d :: collapseAux false (e :: rest2) := by
          simp [collapseAux, hw]
        rw [hh]
        have htail := ih false h2
        rw [List.getLast?_cons, htail]
        rfl

/-- Collapsing is the identity on a list whose whitespace is single
spaces with no two adjacent. -/
theorem collapseAux_fixed (l : List Char)
    (hsp : ∀ c ∈ l, wsChar c = true → c = ' ')
    (hch : List.Chain' (fun x y => ¬(wsChar x = true ∧ wsChar y = true)) l) :
    collapseAux false l = l := by
  induction l with
  | nil => simp [collapseAux]
  | cons d rest ih =>
    have hrest : collapseAux false rest = rest :=
      ih (fun c hc hw => hsp c (List.mem_cons_of_mem _ hc) hw) hch.tail
    cases hw : wsChar d with
    | false =>
      have hh : collapseAux false (d :: rest) = d :: collapseAux false rest := by
        simp [collapseAux, hw]
      rw [hh, hrest]
    | true =>
      have hd : d = ' ' := hsp d (List.mem_cons_self _ _) hw
      subst hd
      have hh : collapseAux false (' ' :: rest) = ' ' :: collapseAux true rest := by
        simp [collapseAux, hw]
      rw [hh]
      cases rest with
      | nil => simp [collapseAux]
      | cons e rest2 =>
        have hrel := (List.chain'_cons.mp hch).1
        have hwe : wsChar e = false := by
          cases hwe2 : wsChar e with
          | false => rfl
          | true => exact absurd ⟨hw, hwe2⟩ hrel
        have hh2 : collapseAux true (e :: rest2) = e :: collapseAux false rest2 := by
          simp [collapseAux, hwe]
        have hh3 : collapseAux false (e :: rest2) = e :: collapseAux false rest2 := by
          simp [collapseAux, hwe]
        rw [hh2]
        rw [hh3] at hrest
        simp only [List.cons.injEq, true_and] at hrest
        rw [hrest]

/-- The first surviving character of dropWhile wsChar is not
whitespace. -/
theorem head_dropWhile_ws (l : List Char) (c : Char)
    (h : (l.dropWhile wsChar).head? = some c) : wsChar c = false := by
  induction l with
  | nil => simp at h
  | cons d rest ih =>
    cases hw : wsChar d with
    | true =>
      rw [List.dropWhile_cons, if_pos hw] at h
      exact ih h
    | false =>
      rw [List.dropWhile_cons, if_neg (by simp [hw])] at h
      simp only [List.head?_cons, Option.some.injEq] at h
      exact h ▸ hw

/-- dropWhile wsChar is the identity when the head is not whitespace. -/
theorem dropWhile_ws_eq_self (l : List Char)
    (hl : ∀ c, l.head? = some c → wsChar c = false) :
    l.dropWhile wsChar = l := by
  cases l with
  | nil => rfl
  | cons d rest =>
    have hw : wsChar d = false := hl d rfl
    rw [List.dropWhile_cons, if_neg (by simp [hw])]

/-- A stripped list never starts with whitespace. -/
theorem strip_head_not_ws (l : List Char) (c : Char)
    (h : (stripChars l).head? = some c) : wsChar c = false := by
  unfold stripChars at h
  rw [List.head?_reverse] at h
  obtain ⟨t, ht⟩ := List.dropWhile_suffix
    (l := (l.dropWhile wsChar).reverse) wsChar
  have hYlast : (l.dropWhile wsChar).reverse.getLast? = some c := by
    rw [← ht, List.getLast?_append, h]
    rfl
  rw [List.getLast?_reverse] at hYlast
  exact head_dropWhile_ws l c hYlast

/-- A stripped list never ends with whitespace. -/
theorem strip_last_not_ws (l : List Char) (c : Char)
    (h : (stripChars l).getLast? = some c) : wsChar c = false := by
  unfold stripChars at h
  rw [List.getLast?_reverse] at h
  exact head_dropWhile_ws _ c h

/-- Stripping is the identity when neither end is whitespace. -/
theorem stripChars_eq_self (l : List Char)
    (h1 : ∀ c, l.head? = some c → wsChar c = false)
    (h2 : ∀ c, l.getLast? = some c → wsChar c = false) :
    stripChars l = l := by
  unfold stripChars
  rw [dropWhile_ws_eq_self l h1]
  have h3 : ∀ c, l.reverse.head? = some c → wsChar c = false := by
    intro c hc
    rw [List.head?_reverse] at hc
    exact h2 c hc
  rw [dropWhile_ws_eq_self l.reverse h3, List.reverse_reverse]

/-- Lowercasing a list is the identity when every character is already
a fixed point. -/
theorem lowerChars_fixed (l : List Char) (h : ∀ c ∈ l, lowerChar c = c) :
    lowerChars l = l := by
  unfold lowerChars
  have h2 : List.map lowerChar l = List.map id l :=
    List.map_congr_left (by intro a ha; simp [h a ha])
  rw [h2, List.map_id]

/-- getLast? commutes with map. -/
theorem getLast_map_opt (f : Char → Char) (l : List Char) :
    (l.map f).getLast? = Option.map f l.getLast? := by
  rw [← List.head?_reverse (l.map f), ← List.map_reverse, List.head?_map,
    List.head?_reverse]

/-- The output of norm_text is canonical: lowercase, single internal
spaces, no whitespace at either end. -/
theorem canonical_norm_text_str (s : String) : Canonical (norm_text_str s) := by
  have hdata : (norm_text_str s).data
      = collapseAux false (lowerChars (stripChars s.data)) := rfl
  set m := lowerChars (stripChars s.data) with hm
  refine ⟨?_, ?_, ?_, ?_, ?_⟩
  · intro c hc
    rw [hdata] at hc
    rcases mem_collapseAux false m c hc with ⟨h1, _⟩ | h1
    · rw [hm] at h1
      obtain ⟨d, _, hd⟩ := List.mem_map.mp h1
      rw [← hd]
      exact lowerChar_idem d
    · rw [h1]
      decide
  · intro c hc hw
    rw [hdata] at hc
    rcases mem_collapseAux false m c hc with ⟨_, h2⟩ | h1
    · rw [hw] at h2
      exact absurd h2 (by simp)
    · exact h1
  · intro c hc
    rw [hdata] at hc
    refine head_collapseAux_false m ?_ c hc
    intro c0 hc0
    rw [hm] at hc0
    unfold lowerChars at hc0
    rw [List.head?_map] at hc0
    cases hs : (stripChars s.data).head? with
    | none => rw [hs] at hc0; simp at hc0
    | some d =>
      rw [hs, Option.map_some'] at hc0
      simp only [Option.some.injEq] at hc0
      rw [← hc0, lowerChar_ws_eq]
      exact strip_head_not_ws s.data d hs
  · intro c hc
    rw [hdata] at hc
    cases hml : m.getLast? with
    | none =>
      rw [List.getLast?_eq_none_iff] at hml
      rw [hml] at hc
      simp [collapseAux] at hc
    | some c0 =>
      have hws0 : wsChar c0 = false := by
        rw [hm] at hml
        unfold lowerChars at hml
        rw [getLast_map_opt] at hml
        cases hs : (stripChars s.data).getLast? with
        | none => rw [hs] at hml; simp at hml
        | some d =>
          rw [hs, Option.map_some'] at hml
          simp only [Option.some.injEq] at hml
          rw [← hml, lowerChar_ws_eq]
          exact strip_last_not_ws s.data d hs
      have hfix := getLast_collapseAux m c0 hws0 false hml
      rw [hfix] at hc
      simp only [Option.some.injEq] at hc
      exact hc ▸ hws0
  · rw [hdata]
    exact chain_collapseAux false m

/-- norm_text is the identity on canonical strings. -/
theorem norm_text_str_of_canonical (s : String) (h : Canonical s) :
    norm_text_str s = s := by
  obtain ⟨h1, h2, h3, h4, h5⟩ := h
  unfold norm_text_str
  rw [stripChars_eq_self s.data h3 h4, lowerChars_fixed s.data h1]
  show String.mk (collapseAux false s.data) = s
  rw [collapseAux_fixed s.data h2 h5]

/-- Text normalization is idempotent. -/
theorem norm_text_str_idem (s : String) :
    norm_text_str (norm_text_str s) = norm_text_str s :=
  norm_text_str_of_canonical _ (canonical_norm_text_str s)

/-- What normItem returns is a non-empty fixed point of normalization. -/
theorem normItem_some (v : PyVal) (s : String) (h : normItem v = some s) :
    norm_text_str s = s ∧ s ≠ "" := by
  cases v with
  | str t =>
    simp only [normItem] at h
    by_cases he : norm_text_str t = ""
    · rw [if_pos he] at h
      exact absurd h (by simp)
    · rw [if_neg he] at h
      simp only [Option.some.injEq] at h
      subst h
      exact ⟨norm_text_str_idem t, he⟩
  | none => exact absurd h (by simp [normItem])
  | int n => exact absurd h (by simp [normItem])
  | bool b => exact absurd h (by simp [normItem])
  | list xs => exact absurd h (by simp [normItem])

/-- Elements of a normalized list are non-empty fixed points. -/
theorem norm_list_mem (x : PyVal) (s : String) (h : s ∈ norm_list x) :
    norm_text_str s = s ∧ s ≠ "" := by
  cases x with
  | list xs =>
    simp only [norm_list] at h
    obtain ⟨v, _, hv⟩ := List.mem_filterMap.mp h
    exact normItem_some v s hv
  | none => simp [norm_list] at h
  | str t => simp [norm_list] at h
  | int n => simp [norm_list] at h
  | bool b => simp [norm_list] at h

/-- filterMap with a function that keeps every element is the
identity. -/
theorem filterMap_fixed {α : Type} (f : α → Option α) (l : List α)
    (h : ∀ a ∈ l, f a = some a) : l.filterMap f = l := by
  induction l with
  | nil => rfl
  | cons d rest ih =>
    rw [List.filterMap_cons, h d (List.mem_cons_self _ _)]
    rw [ih (fun a ha => h a (List.mem_cons_of_mem _ ha))]

/-- C2: coverage of an empty requirement set is 1.0 for every candidate
set; a non-empty requirement set against an empty candidate set gives
0.0; otherwise coverage is the intersection-over-requirement ratio. -/
theorem coverage_empty_full_and_ratio :
    (∀ S : Finset String, coverage S ∅ = 1) ∧
    (∀ R : Finset String, R ≠ ∅ → coverage (∅ : Finset String) R = 0) ∧
    (∀ S R : Finset String, R ≠ ∅ →
      coverage S R = ((S ∩ R).card : ℚ) / (R.card : ℚ)) := by
  refine ⟨fun S => by simp [coverage], fun R hR => ?_, fun S R hR => by
    simp [coverage, hR]⟩
  simp [coverage, hR]

/-- Witness for C2 at concrete sets. -/
theorem coverage_empty_full_and_ratio_check :
    coverage {"python"} ∅ = 1 ∧
    coverage (∅ : Finset String) {"python"} = 0 ∧
    coverage {"python"} {"python", "sql"}
      = ((({"python"} : Finset String) ∩ {"python", "sql"}).card : ℚ)
        / ((({"python", "sql"} : Finset String)).card : ℚ) :=
  ⟨coverage_empty_full_and_ratio.1 {"python"},
   coverage_empty_full_and_ratio.2.1 {"python"} (by decide),
   coverage_empty_full_and_ratio.2.2 {"python"} {"python", "sql"} (by decide)⟩

/-- C9: normalization is idempotent — re-normalizing normalized text is
a no-op, re-normalizing a normalized list is a no-op, and to_set on a
list of already-normalized strings is exactly that set of strings. -/
theorem normalization_idempotent :
    (∀ v : PyVal, norm_text (.str (norm_text v)) = norm_text v) ∧
    (∀ x : PyVal, norm_list (.list ((norm_list x).map .str)) = norm_list x) ∧
    (∀ l : List String, (∀ s ∈ l, norm_text_str s = s ∧ s ≠ "") →
      to_set (.list (l.map .str)) = l.toFinset) := by
  refine ⟨?_, ?_, ?_⟩
  · intro v
    cases v with
    | str s => exact norm_text_str_idem s
    | none => rfl
    | int n => rfl
    | bool b => rfl
    | list xs => rfl
  · intro x
    show (List.map PyVal.str (norm_list x)).filterMap normItem = norm_list x
    rw [List.filterMap_map]
    apply filterMap_fixed
    intro s hs
    obtain ⟨hfix, hne⟩ := norm_list_mem x s hs
    simp [Function.comp, normItem, hfix, hne]
  · intro l hl
    show ((List.map PyVal.str l).filterMap normItem).toFinset = l.toFinset
    rw [List.filterMap_map]
    rw [filterMap_fixed _ _ ?_]
    intro s hs
    obtain ⟨hfix, hne⟩ := hl s hs
    simp [Function.comp, normItem, hfix, hne]

/-- Witness for C9: the third conjunct applied to the normalized list
["a b"]. -/
theorem normalization_idempotent_check :
    (∀ s ∈ ["a b"], norm_text_str s = s ∧ s ≠ "") ∧
    to_set (.list ((["a b"] : List String).map .str))
      = (["a b"] : List String).toFinset :=
  ⟨by decide, normalization_idempotent.2.2 ["a b"] (by decide)⟩

/-- C6: to_set never fails on any input value and returns a set of
canonical (lowercase, whitespace-collapsed, trimmed) non-empty strings;
non-list and non-string inputs give the empty set. -/
theorem to_set_total_and_canonical :
    ∀ x : PyVal,
      (∀ s ∈ to_set x, Canonical s ∧ s ≠ "") ∧
      ((match x with
        | .str _ => False
        | .list _ => False
        | _ => True) → to_set x = ∅) := by
  intro x
  constructor
  · intro s hs
    rw [to_set, List.mem_toFinset] at hs
    obtain ⟨hfix, hne⟩ := norm_list_mem x s hs
    refine ⟨?_, hne⟩
    rw [← hfix]
    exact canonical_norm_text_str s
  · intro hx
    cases x with
    | str s => exact hx.elim
    | list xs => exact hx.elim
    | none => rfl
    | int n => rfl
    | bool b => rfl

/-- Witness for C6: a list input produces a canonical element; an
integer input produces the empty set. -/
theorem to_set_total_and_canonical_check :
    ("a b" ∈ to_set (.list [.str " A  b "])) ∧ Canonical "a b" ∧
    "a b" ≠ "" ∧ to_set (.int 3) = ∅ := by
  have h1 : "a b" ∈ to_set (.list [.str " A  b "]) := by decide
  exact ⟨h1, ((to_set_total_and_canonical _).1 "a b" h1).1,
    ((to_set_total_and_canonical _).1 "a b" h1).2,
    (to_set_total_and_canonical (.int 3)).2 trivial⟩

/-- C3: after normalizing both lists, semantic_overlap returns full
coverage with nothing missing when the job side is empty, and zero
coverage with every job item missing when the CV side is empty but the
job side is not. -/
theorem semantic_overlap_degenerate :
    ∀ (cos : String → String → ℚ) (cv_items job_items : List PyVal) (t : ℚ),
      (job_items.filterMap normItem = [] →
        semantic_overlap cos cv_items job_items t = ⟨[], [], 1⟩) ∧
      (cv_items.filterMap normItem = [] →
        job_items.filterMap normItem ≠ [] →
        semantic_overlap cos cv_items job_items t
          = ⟨[], job_items.filterMap normItem, 0⟩) := by
  intro cos cv job t
  constructor
  · intro hj
    simp [semantic_overlap, hj]
  · intro hc hj
    simp [semantic_overlap, hc, hj]

/-- Witness for C3: an all-non-string job list normalizes to empty and
yields coverage 1; an empty CV list against job item "sql" yields
coverage 0 with "sql" missing. -/
theorem semantic_overlap_degenerate_check :
    ([PyVal.int 7].filterMap normItem = []) ∧
    semantic_overlap cos0 [.str "python"] [.int 7] (3/4) = ⟨[], [], 1⟩ ∧
    (([] : List PyVal).filterMap normItem = []) ∧
    ([PyVal.str "sql"].filterMap normItem ≠ []) ∧
    semantic_overlap cos0 [] [.str "sql"] (3/4) = ⟨[], ["sql"], 0⟩ := by
  refine ⟨by decide, ?_, by decide, by decide, ?_⟩
  · exact (semantic_overlap_degenerate cos0 [.str "python"] [.int 7] (3/4)).1
      (by decide)
  · have h := (semantic_overlap_degenerate cos0 [] [.str "sql"] (3/4)).2
      (by decide) (by decide)
    rw [h]
    decide

/-- C10: for a job list that is non-empty after normalization, matched
and missing are complementary sublists of the normalized job items (each
item lands in exactly one, in input order), and coverage is the matched
fraction rounded to two decimals. -/
theorem semantic_overlap_partition :
    ∀ (cos : String → String → ℚ) (cv_items job_items : List PyVal) (t : ℚ),
      job_items.filterMap normItem ≠ [] →
      (semantic_overlap cos cv_items job_items t).matched.Sublist
        (job_items.filterMap normItem) ∧
      (semantic_overlap cos cv_items job_items t).missing.Sublist
        (job_items.filterMap normItem) ∧
      ((semantic_overlap cos cv_items job_items t).matched
        ++ (semantic_overlap cos cv_items job_items t).missing).Perm
        (job_items.filterMap normItem) ∧
      (semantic_overlap cos cv_items job_items t).coverage
        = round2
            (((semantic_overlap cos cv_items job_items t).matched.length : ℚ)
              / ((job_items.filterMap normItem).length : ℚ)) := by
  intro cos cv job t hj
  by_cases hc : cv.filterMap normItem = []
  · have hr : semantic_overlap cos cv job t
        = ⟨[], job.filterMap normItem, 0⟩ := by
      simp [semantic_overlap, hj, hc]
    rw [hr]
    refine ⟨List.nil_sublist _, List.Sublist.refl _, by simp, ?_⟩
    simp [round2]
  · have hr : semantic_overlap cos cv job t
        = ⟨(job.filterMap normItem).filter
            (fun j => (cv.filterMap normItem).any (fun c => t ≤ cos j c)),
           (job.filterMap normItem).filter
            (fun j => !(cv.filterMap normItem).any (fun c => t ≤ cos j c)),
           round2
             ((((job.filterMap normItem).filter
                 (fun j => (cv.filterMap normItem).any
                   (fun c => t ≤ cos j c))).length : ℚ)
               / ((job.filterMap normItem).length : ℚ))⟩ := by
      simp [semantic_overlap, hj, hc]
    rw [hr]
    exact ⟨List.filter_sublist _, List.filter_sublist _,
      List.filter_append_perm _ _, rfl⟩

/-- Exact coverage is never negative. -/
theorem coverage_nonneg (S T : Finset String) : 0 ≤ coverage S T := by
  unfold coverage
  split
  · norm_num
  · positivity

/-- Exact coverage never exceeds one. -/
theorem coverage_le_one (S T : Finset String) : coverage S T ≤ 1 := by
  unfold coverage
  split
  · exact le_refl 1
  · next hT =>
    have hpos : 0 < (T.card : ℚ) := by
      have h := Finset.card_pos.mpr (Finset.nonempty_iff_ne_empty.mpr hT)
      exact_mod_cast h
    rw [div_le_one hpos]
    exact_mod_cast Finset.card_le_card Finset.inter_subset_right

/-- Exact coverage is one when the requirement set is contained in the
candidate set. -/
theorem coverage_full (S T : Finset String) (h : T ⊆ S) : coverage S T = 1 := by
  unfold coverage
  split
  · rfl
  · next hT =>
    have hpos : 0 < (T.card : ℚ) := by
      have h2 := Finset.card_pos.mpr (Finset.nonempty_iff_ne_empty.mpr hT)
      exact_mod_cast h2
    rw [Finset.inter_eq_right.mpr h, div_self (ne_of_gt hpos)]

/-- Exact coverage of a non-empty requirement set is below one exactly
when some requirement is absent from the candidate set. -/
theorem coverage_lt_one_iff (S T : Finset String) (hT : T ≠ ∅) :
    coverage S T < 1 ↔ 0 < (T \ S).card := by
  have hpos : 0 < (T.card : ℚ) := by
    have h := Finset.card_pos.mpr (Finset.nonempty_iff_ne_empty.mpr hT)
    exact_mod_cast h
  have hsum := Finset.card_sdiff_add_card_inter T S
  have hnat : (S ∩ T).card < T.card ↔ 0 < (T \ S).card := by
    rw [Finset.inter_comm]
    omega
  rw [coverage, if_neg hT, div_lt_one hpos]
  constructor
  · intro h
    exact hnat.mp (by exact_mod_cast h)
  · intro h
    exact_mod_cast hnat.mpr h

/-- Rounding to two decimals keeps values of the unit interval inside
the unit interval. -/
theorem round2_bounds (q : ℚ) (h0 : 0 ≤ q) (h1 : q ≤ 1) :
    0 ≤ round2 q ∧ round2 q ≤ 1 := by
  constructor
  · unfold round2
    apply div_nonneg _ (by norm_num)
    have h : (0 : ℤ) ≤ round (q * 100) := by
      rw [round_eq]
      exact Int.le_floor.mpr (by push_cast; linarith)
    exact_mod_cast h
  · unfold round2
    rw [div_le_one (by norm_num)]
    have h : (round (q * 100) : ℤ) ≤ 100 := by
      rw [round_eq]
      have h2 : ⌊q * 100 + 1/2⌋ < 101 := Int.floor_lt.mpr (by push_cast; linarith)
      omega
    exact_mod_cast h

/-- Rounding to three decimals keeps values of the unit interval inside
the unit interval. -/
theorem round3_bounds (q : ℚ) (h0 : 0 ≤ q) (h1 : q ≤ 1) :
    0 ≤ round3 q ∧ round3 q ≤ 1 := by
  constructor
  · unfold round3
    apply div_nonneg _ (by norm_num)
    have h : (0 : ℤ) ≤ round (q * 1000) := by
      rw [round_eq]
      exact Int.le_floor.mpr (by push_cast; linarith)
    exact_mod_cast h
  · unfold round3
    rw [div_le_one (by norm_num)]
    have h : (round (q * 1000) : ℤ) ≤ 1000 := by
      rw [round_eq]
      have h2 : ⌊q * 1000 + 1/2⌋ < 1001 := Int.floor_lt.mpr (by push_cast; linarith)
      omega
    exact_mod_cast h

/-- The coverage field of semantic_overlap lies in the unit interval. -/
theorem overlap_coverage_bounds (cos : String → String → ℚ)
    (cv job : List PyVal) (t : ℚ) :
    0 ≤ (semantic_overlap cos cv job t).coverage ∧
    (semantic_overlap cos cv job t).coverage ≤ 1 := by
  by_cases hj : job.filterMap normItem = []
  · simp [semantic_overlap, hj]
  · by_cases hc : cv.filterMap normItem = []
    · simp [semantic_overlap, hj, hc]
    · have hlen : 0 < ((job.filterMap normItem).length : ℚ) := by
        have h := List.length_pos.mpr hj
        exact_mod_cast h
      simp only [semantic_overlap, hj, hc, if_neg, ite_false]
      simp [hj, hc]
      refine round2_bounds _ (div_nonneg (by positivity) (le_of_lt hlen)) ?_
      rw [div_le_one hlen]
      exact_mod_cast List.length_filter_le _ _

/-- The resolved per-category coverage lies in the unit interval. -/
theorem resolvedCoverage_bounds (cos : String → String → ℚ) (us : Bool)
    (st : ℚ) (cvl jl : List String) :
    0 ≤ resolvedCoverage cos us st cvl jl ∧
    resolvedCoverage cos us st cvl jl ≤ 1 := by
  unfold resolvedCoverage resolvedDetail
  by_cases hg : semGuard us jl jl.toFinset cvl.toFinset = true
  · rw [if_pos hg]
    exact overlap_coverage_bounds cos _ _ st
  · rw [if_neg hg]
    exact ⟨coverage_nonneg _ _, coverage_le_one _ _⟩

/-- The resolved coverage of a fully covered category is one: the
semantic fallback is skipped and the exact coverage is one. -/
theorem resolvedCoverage_full (cos : String → String → ℚ) (us : Bool)
    (st : ℚ) (cvl jl : List String) (h : jl.toFinset ⊆ cvl.toFinset) :
    resolvedCoverage cos us st cvl jl = 1 := by
  have hsd : jl.toFinset \ cvl.toFinset = ∅ :=
    Finset.sdiff_eq_empty_iff_subset.mpr h
  have hguard : semGuard us jl jl.toFinset cvl.toFinset = false := by
    unfold semGuard
    simp [hsd]
  unfold resolvedCoverage resolvedDetail
  rw [hguard]
  simp [coverage_full _ _ h]

/-- The description similarity lies in the unit interval whenever the
similarity function does. -/
theorem sstext_bounds (cos : String → String → ℚ)
    (hcos : ∀ a b, 0 ≤ cos a b ∧ cos a b ≤ 1) (x y : String) :
    0 ≤ semantic_similarity_text cos x y ∧
    semantic_similarity_text cos x y ≤ 1 := by
  have hdef : semantic_similarity_text cos x y
      = if norm_text_str x = "" ∨ norm_text_str y = "" then 0
        else round3 (cos (norm_text_str x) (norm_text_str y)) := rfl
  rw [hdef]
  by_cases h : norm_text_str x = "" ∨ norm_text_str y = ""
  · rw [if_pos h]
    norm_num
  · rw [if_neg h]
    exact round3_bounds _ (hcos _ _).1 (hcos _ _).2

/-- Score rounding bounds: a total in [0, B] rounds to a score in
[0, 100B + 1/20]. -/
theorem round1_score_bounds (total B : ℚ) (h0 : 0 ≤ total) (hB : total ≤ B) :
    0 ≤ round1 (total * 100) ∧ round1 (total * 100) ≤ 100 * B + 1/20 := by
  constructor
  · unfold round1
    apply div_nonneg _ (by norm_num)
    have h : (0 : ℤ) ≤ round (total * 100 * 10) := by
      rw [round_eq]
      exact Int.le_floor.mpr (by push_cast; linarith)
    exact_mod_cast h
  · unfold round1
    rw [div_le_iff₀ (by norm_num : (0:ℚ) < 10)]
    have hf : ((round (total * 100 * 10) : ℤ) : ℚ) ≤ total * 1000 + 1/2 := by
      rw [round_eq]
      have h2 := Int.floor_le (total * 100 * 10 + 1/2)
      push_cast at h2 ⊢
      linarith
    linarith

/-- The guard of the semantic fallback holds exactly when the caller
enabled it, the job list is non-empty and the exact coverage is
incomplete. -/
theorem semGuard_iff (us : Bool) (jl : List String) (S : Finset String) :
    semGuard us jl jl.toFinset S = true
      ↔ (us = true ∧ jl ≠ [] ∧ coverage S jl.toFinset < 1) := by
  unfold semGuard
  simp only [Bool.and_eq_true, decide_eq_true_eq]
  constructor
  · rintro ⟨⟨hus, hne⟩, hcard⟩
    have hjl : jl ≠ [] := by
      intro hnil
      rw [hnil] at hne
      simp at hne
    have hT : jl.toFinset ≠ ∅ := by
      rw [Ne, List.toFinset_eq_empty_iff]
      exact hjl
    exact ⟨hus, hjl, (coverage_lt_one_iff S jl.toFinset hT).mpr hcard⟩
  · rintro ⟨hus, hjl, hcov⟩
    have hT : jl.toFinset ≠ ∅ := by
      rw [Ne, List.toFinset_eq_empty_iff]
      exact hjl
    refine ⟨⟨hus, ?_⟩, (coverage_lt_one_iff S jl.toFinset hT).mp hcov⟩
    cases jl with
    | nil => exact absurd rfl hjl
    | cons a l => rfl

/-- C4: the semantic overlap (and hence any embedding call for a skill
category) is computed exactly when semantic matching is enabled, the job
side is non-empty and the exact coverage is incomplete; and the soft and
optional-language outputs are always the exact computation, independent
of the similarity function. -/
theorem semantic_fallback_policy :
    (∀ (cos : String → String → ℚ) (us : Bool) (st : ℚ)
        (cvl jl : List String),
      (resolvedDetail cos us st cvl jl).isSome = true
        ↔ (us = true ∧ jl ≠ [] ∧ coverage cvl.toFinset jl.toFinset < 1)) ∧
    (∀ (cos : String → String → ℚ) (cv : CVInput) (job : JobInput)
        (us : Bool) (st : ℚ) (uds : Bool),
      (match_cv_job cos cv job us st uds Option.none).map
          (fun r => (r.soft_coverage, r.soft_skills_missing,
            r.languages_optional_missing))
        = some (round2 (coverage (to_set cv.skills_soft) (to_set job.skills_soft)),
            sortDedup (setToList (to_set job.skills_soft \ to_set cv.skills_soft)),
            sortDedup (setToList
              (to_set job.languages_optional \ to_set cv.languages)))) := by
  constructor
  · intro cos us st cvl jl
    unfold resolvedDetail
    by_cases hg : semGuard us jl jl.toFinset cvl.toFinset = true
    · rw [if_pos hg]
      exact ⟨fun _ => (semGuard_iff us jl cvl.toFinset).mp hg, fun _ => rfl⟩
    · rw [if_neg hg]
      constructor
      · intro h
        exact absurd h (by simp)
      · intro h
        exact absurd ((semGuard_iff us jl cvl.toFinset).mpr h) hg
  · intro cos cv job us st uds
    rfl

/-- The score projection of match_cv_job: the five weight lookups in
order, then the weighted total rounded to one decimal. -/
theorem match_cv_job_map_score (cos : String → String → ℚ) (cv : CVInput)
    (job : JobInput) (us : Bool) (st : ℚ) (uds : Bool)
    (wa : Option (String → Option ℚ)) :
    (match_cv_job cos cv job us st uds wa).map (fun r => r.score)
      = (do
          let w1 ← (wa.getD defaultWeights) "hard_required"
          let w2 ← (wa.getD defaultWeights) "hard_optional"
          let w3 ← (wa.getD defaultWeights) "soft"
          let w4 ← (wa.getD defaultWeights) "languages"
          let w5 ← (wa.getD defaultWeights) "description"
          some (round1 ((w1 * resolvedCoverage cos us st
              (norm_list cv.skills_hard) (norm_list job.skills_hard_required)
            + w2 * resolvedCoverage cos us st
              (norm_list cv.skills_hard) (norm_list job.skills_hard_optional)
            + w3 * coverage (norm_list cv.skills_soft).toFinset
              (norm_list job.skills_soft).toFinset
            + w4 * resolvedCoverage cos us st
              (norm_list cv.languages) (norm_list job.languages_required)
            + w5 * (if uds = true then semantic_similarity_text cos
                (norm_text cv.text) (norm_text job.description) else 0))
            * 100))) := by
  cases h1 : (wa.getD defaultWeights) "hard_required" with
  | none => simp [match_cv_job, h1]
  | some w1 =>
    cases h2 : (wa.getD defaultWeights) "hard_optional" with
    | none => simp [match_cv_job, h1, h2]
    | some w2 =>
      cases h3 : (wa.getD defaultWeights) "soft" with
      | none => simp [match_cv_job, h1, h2, h3]
      | some w3 =>
        cases h4 : (wa.getD defaultWeights) "languages" with
        | none => simp [match_cv_job, h1, h2, h3, h4]
        | some w4 =>
          cases h5 : (wa.getD defaultWeights) "description" with
          | none => simp [match_cv_job, h1, h2, h3, h4, h5]
          | some w5 => simp [match_cv_job, h1, h2, h3, h4, h5]

/-- Rounding an integer value to one decimal returns it unchanged. -/
theorem round1_int (n : ℤ) : round1 ((n : ℚ)) = n := by
  unfold round1
  rw [show ((n:ℚ) * 10) = (((10 * n : ℤ)) : ℚ) by push_cast; ring, round_intCast]
  push_cast
  field_simp

/-- C1 counterexample: scenario 5's weights dict carrying only the
hard_required key makes match_cv_job raise KeyError (modelled: none)
even with full hard-required coverage, instead of returning score
100.0. -/
theorem weights_missing_key_raises :
    to_set jobPython.skills_hard_required ⊆ to_set cvPython.skills_hard ∧
    match_cv_job cos0 cvPython jobPython true (3/4) true
      (some wOnlyHardRequired) = Option.none :=
  ⟨by decide, rfl⟩

/-- C1 amended: a weight key outside the five recognized categories is
silently unused (the score only depends on the five recognized entries);
a weights dict defined on all five recognized categories succeeds, and
hard_required at 1 with the other four present at 0 under full
hard-required coverage scores 100.0 regardless of the other coverages.
A dict missing a recognized key raises KeyError instead. -/
theorem weights_unused_keys_and_scenario5 :
    ∀ (cos : String → String → ℚ) (cv : CVInput) (job : JobInput)
      (us : Bool) (st : ℚ) (uds : Bool) (w w2 : String → Option ℚ),
      ((∀ k ∈ recognizedKeys, w k = w2 k) →
        (match_cv_job cos cv job us st uds (some w)).map (fun r => r.score)
          = (match_cv_job cos cv job us st uds (some w2)).map (fun r => r.score)) ∧
      (w "hard_required" = some 1 → w "hard_optional" = some 0 →
        w "soft" = some 0 → w "languages" = some 0 →
        w "description" = some 0 →
        to_set job.skills_hard_required ⊆ to_set cv.skills_hard →
        (match_cv_job cos cv job us st uds (some w)).map (fun r => r.score)
          = some 100) := by
  intro cos cv job us st uds w w2
  constructor
  · intro h
    have e1 := h "hard_required" (by simp [recognizedKeys])
    have e2 := h "hard_optional" (by simp [recognizedKeys])
    have e3 := h "soft" (by simp [recognizedKeys])
    have e4 := h "languages" (by simp [recognizedKeys])
    have e5 := h "description" (by simp [recognizedKeys])
    rw [match_cv_job_map_score, match_cv_job_map_score]
    simp only [Option.getD_some]
    rw [e1, e2, e3, e4, e5]
  · intro hw1 hw2 hw3 hw4 hw5 hsub
    rw [match_cv_job_map_score]
    simp only [Option.getD_some, hw1, hw2, hw3, hw4, hw5,
      Option.bind_eq_bind, Option.some_bind]
    rw [resolvedCoverage_full _ _ _ _ _ hsub]
    have hval : ((1:ℚ) * 1
        + 0 * resolvedCoverage cos us st (norm_list cv.skills_hard)
            (norm_list job.skills_hard_optional)
        + 0 * coverage (norm_list cv.skills_soft).toFinset
            (norm_list job.skills_soft).toFinset
        + 0 * resolvedCoverage cos us st (norm_list cv.languages)
            (norm_list job.languages_required)
        + 0 * (if uds = true then semantic_similarity_text cos
            (norm_text cv.text) (norm_text job.description) else 0)) * 100
        = ((100 : ℤ) : ℚ) := by
      push_cast
      ring
    rw [hval, round1_int]
    norm_num

/-- Witness for C1 amended: wFive and wFiveExtra agree on the recognized
keys, and wFive scores the fully covered cvPython/jobPython pair at
100. -/
theorem weights_unused_keys_and_scenario5_check :
    ((match_cv_job cos0 cvPython jobPython true (3/4) true (some wFive)).map
        (fun r => r.score)
      = (match_cv_job cos0 cvPython jobPython true (3/4) true
          (some wFiveExtra)).map (fun r => r.score)) ∧
    (match_cv_job cos0 cvPython jobPython true (3/4) true (some wFive)).map
        (fun r => r.score) = some 100 := by
  constructor
  · exact (weights_unused_keys_and_scenario5 cos0 cvPython jobPython true (3/4)
      true wFive wFiveExtra).1 (by decide)
  · exact (weights_unused_keys_and_scenario5 cos0 cvPython jobPython true (3/4)
      true wFive wFiveExtra).2 rfl rfl rfl rfl rfl (by decide)

/-- C5 counterexample: with the recognized weights present, nonnegative
and summing to 0.0106, full hard-required coverage and a zero
description term, the returned score 1.1 exceeds 100 × the weight sum
1.06 — the final one-decimal rounding overshoots the stated bound. -/
theorem score_bound_counterexample :
    wTiny "hard_required" = some (53/5000) ∧ wTiny "hard_optional" = some 0 ∧
    wTiny "soft" = some 0 ∧ wTiny "languages" = some 0 ∧
    wTiny "description" = some 0 ∧
    (match_cv_job cos0 cvPython jobPython false (3/4) false (some wTiny)).map
      (fun r => r.score) = some (11/10) ∧
    100 * (53/5000 + 0 + 0 + 0 + (0:ℚ)) < 11/10 := by
  refine ⟨rfl, rfl, rfl, rfl, rfl, ?_, by norm_num⟩
  rw [match_cv_job_map_score]
  simp only [Option.getD_some,
    show wTiny "hard_required" = some (53/5000) from rfl,
    show wTiny "hard_optional" = some 0 from rfl,
    show wTiny "soft" = some 0 from rfl,
    show wTiny "languages" = some 0 from rfl,
    show wTiny "description" = some 0 from rfl,
    Option.bind_eq_bind, Option.some_bind]
  rw [resolvedCoverage_full _ _ _ _ _
    (by decide : (norm_list jobPython.skills_hard_required).toFinset
      ⊆ (norm_list cvPython.skills_hard).toFinset)]
  simp only [zero_mul, add_zero, mul_one]
  have h53 : (53:ℚ)/5000 * 100 = 53/50 := by norm_num
  rw [h53]
  have hround : round ((53:ℚ)/50 * 10) = 11 := by
    rw [show (53:ℚ)/50 * 10 = 53/5 by norm_num, round_eq,
      show (53:ℚ)/5 + 1/2 = 111/10 by norm_num]
    exact Int.floor_eq_iff.mpr (by norm_num)
  unfold round1
  rw [hround]
  norm_num

/-- C5 amended: with the five recognized weights present and
nonnegative, and the similarity function confined to the unit interval,
the score lies in [0, 100 × (sum of the five recognized weights) +
0.05]; the extra 0.05 is the worst case of the final one-decimal
rounding, which the original bound omitted. -/
theorem score_bound_amended :
    ∀ (cos : String → String → ℚ) (cv : CVInput) (job : JobInput)
      (us : Bool) (st : ℚ) (uds : Bool) (w : String → Option ℚ)
      (w1 w2 w3 w4 w5 : ℚ),
      (∀ a b, 0 ≤ cos a b ∧ cos a b ≤ 1) →
      w "hard_required" = some w1 → w "hard_optional" = some w2 →
      w "soft" = some w3 → w "languages" = some w4 →
      w "description" = some w5 →
      0 ≤ w1 → 0 ≤ w2 → 0 ≤ w3 → 0 ≤ w4 → 0 ≤ w5 →
      ∃ r, match_cv_job cos cv job us st uds (some w) = some r ∧
        0 ≤ r.score ∧ r.score ≤ 100 * (w1 + w2 + w3 + w4 + w5) + 1/20 := by
  intro cos cv job us st uds w w1 w2 w3 w4 w5 hcos hw1 hw2 hw3 hw4 hw5
    p1 p2 p3 p4 p5
  have hmap := match_cv_job_map_score cos cv job us st uds (some w)
  simp only [Option.getD_some, hw1, hw2, hw3, hw4, hw5,
    Option.bind_eq_bind, Option.some_bind] at hmap
  cases hm : match_cv_job cos cv job us st uds (some w) with
  | none =>
    rw [hm] at hmap
    simp at hmap
  | some r =>
    rw [hm, Option.map_some'] at hmap
    simp only [Option.some.injEq] at hmap
    set c1 := resolvedCoverage cos us st (norm_list cv.skills_hard)
      (norm_list job.skills_hard_required) with hc1
    set c2 := resolvedCoverage cos us st (norm_list cv.skills_hard)
      (norm_list job.skills_hard_optional) with hc2
    set c3 := coverage (norm_list cv.skills_soft).toFinset
      (norm_list job.skills_soft).toFinset with hc3
    set c4 := resolvedCoverage cos us st (norm_list cv.languages)
      (norm_list job.languages_required) with hc4
    set c5 := (if uds = true then semantic_similarity_text cos
      (norm_text cv.text) (norm_text job.description) else 0) with hc5
    have b1 := resolvedCoverage_bounds cos us st (norm_list cv.skills_hard)
      (norm_list job.skills_hard_required)
    have b2 := resolvedCoverage_bounds cos us st (norm_list cv.skills_hard)
      (norm_list job.skills_hard_optional)
    have b3l := coverage_nonneg (norm_list cv.skills_soft).toFinset
      (norm_list job.skills_soft).toFinset
    have b3r := coverage_le_one (norm_list cv.skills_soft).toFinset
      (norm_list job.skills_soft).toFinset
    have b4 := resolvedCoverage_bounds cos us st (norm_list cv.languages)
      (norm_list job.languages_required)
    have b5 : 0 ≤ c5 ∧ c5 ≤ 1 := by
      rw [hc5]
      cases uds with
      | false => norm_num
      | true =>
        simpa using sstext_bounds cos hcos (norm_text cv.text)
          (norm_text job.description)
    rw [← hc1] at b1
    rw [← hc2] at b2
    rw [← hc3] at b3l b3r
    rw [← hc4] at b4
    have hT0 : 0 ≤ w1 * c1 + w2 * c2 + w3 * c3 + w4 * c4 + w5 * c5 :=
      add_nonneg (add_nonneg (add_nonneg (add_nonneg
        (mul_nonneg p1 b1.1) (mul_nonneg p2 b2.1)) (mul_nonneg p3 b3l))
        (mul_nonneg p4 b4.1)) (mul_nonneg p5 b5.1)
    have hTB : w1 * c1 + w2 * c2 + w3 * c3 + w4 * c4 + w5 * c5
        ≤ w1 + w2 + w3 + w4 + w5 := by
      have m1 : w1 * c1 ≤ w1 := mul_le_of_le_one_right p1 b1.2
      have m2 : w2 * c2 ≤ w2 := mul_le_of_le_one_right p2 b2.2
      have m3 : w3 * c3 ≤ w3 := mul_le_of_le_one_right p3 b3r
      have m4 : w4 * c4 ≤ w4 := mul_le_of_le_one_right p4 b4.2
      have m5 : w5 * c5 ≤ w5 := mul_le_of_le_one_right p5 b5.2
      linarith
    refine ⟨r, rfl, ?_, ?_⟩
    · rw [hmap]
      exact (round1_score_bounds _ _ hT0 hTB).1
    · rw [hmap]
      exact (round1_score_bounds _ _ hT0 hTB).2

/-- Witness for C5 amended at the default weights and a constant
one-half similarity. -/
theorem score_bound_amended_check :
    ∃ r, match_cv_job cosHalf cvEmpty jobEmpty true (3/4) true
        (some defaultWeights) = some r ∧
      0 ≤ r.score ∧
      r.score ≤ 100 * (45/100 + 15/100 + 10/100 + 10/100 + 20/100) + 1/20 :=
  score_bound_amended cosHalf cvEmpty jobEmpty true (3/4) true defaultWeights
    (45/100) (15/100) (10/100) (10/100) (20/100)
    (fun a b => by norm_num [cosHalf]) rfl rfl rfl rfl rfl
    (by norm_num) (by norm_num) (by norm_num) (by norm_num) (by norm_num)

/-- Witness for C4: the guard fires on an uncovered requirement, and the
soft fields of a concrete match are the exact computation. -/
theorem semantic_fallback_policy_check :
    (resolvedDetail cos0 true (3/4) [] ["x"]).isSome = true ∧
    (match_cv_job cos0 cvEmpty jobEmpty true (3/4) false Option.none).map
        (fun r => (r.soft_coverage, r.soft_skills_missing,
          r.languages_optional_missing))
      = some (round2 (coverage (to_set cvEmpty.skills_soft)
            (to_set jobEmpty.skills_soft)),
          sortDedup (setToList
            (to_set jobEmpty.skills_soft \ to_set cvEmpty.skills_soft)),
          sortDedup (setToList
            (to_set jobEmpty.languages_optional \ to_set cvEmpty.languages))) := by
  constructor
  · apply (semantic_fallback_policy.1 cos0 true (3/4) [] ["x"]).mpr
    refine ⟨rfl, by decide, ?_⟩
    have h0 : coverage (([] : List String)).toFinset
        (["x"] : List String).toFinset = 0 := by
      simp [coverage]
    rw [h0]
    norm_num
  · exact semantic_fallback_policy.2 cos0 cvEmpty jobEmpty true (3/4) false

/-- Rounding an integer value to two decimals returns it unchanged. -/
theorem round2_int (n : ℤ) : round2 ((n : ℚ)) = n := by
  unfold round2
  rw [show ((n:ℚ) * 100) = (((100 * n : ℤ)) : ℚ) by push_cast; ring, round_intCast]
  push_cast
  field_simp

/-- The market loop returns the empty row list when every job matches
below the threshold. -/
theorem marketLoop_below (cos : String → String → ℚ) (cv : CVInput)
    (ms : ℚ) (us : Bool) (st : ℚ) (uds : Bool)
    (wa : Option (String → Option ℚ)) :
    ∀ jobs : List JobInput,
      (∀ j ∈ jobs, ∃ m, match_cv_job cos cv j us st uds wa = some m ∧
        m.score < ms) →
      marketLoop cos cv ms us st uds wa jobs = some [] := by
  intro jobs
  induction jobs with
  | nil => intro _; rfl
  | cons j rest ih =>
    intro h
    obtain ⟨m, hm, hlt⟩ := h j (List.mem_cons_self _ _)
    have hrest := ih (fun j2 hj2 => h j2 (List.mem_cons_of_mem _ hj2))
    simp only [marketLoop, hm, hrest, Option.bind_eq_bind, Option.some_bind]
    rw [if_neg (not_le.mpr hlt)]

/-- C7: match_cv_market returns an empty result container, not an
error, when the job collection is empty or when no job reaches
min_score. -/
theorem market_empty_result :
    ∀ (cos : String → String → ℚ) (cv : CVInput) (ms : ℚ) (us : Bool)
      (st : ℚ) (uds : Bool) (wa : Option (String → Option ℚ)),
      match_cv_market cos cv [] ms us st uds wa = some [] ∧
      ∀ jobs : List JobInput,
        (∀ j ∈ jobs, ∃ m, match_cv_job cos cv j us st uds wa = some m ∧
          m.score < ms) →
        match_cv_market cos cv jobs ms us st uds wa = some [] := by
  intro cos cv ms us st uds wa
  refine ⟨rfl, ?_⟩
  intro jobs h
  unfold match_cv_market
  rw [marketLoop_below cos cv ms us st uds wa jobs h]
  rfl

/-- Witness for C7: the empty market, and a single job scoring 35 below
the default threshold 40. -/
theorem market_empty_result_check :
    match_cv_market cos0 cvEmpty [] 40 false (3/4) false Option.none
      = some [] ∧
    match_cv_market cos0 cvEmpty [jobX] 40 false (3/4) false Option.none
      = some [] := by
  refine ⟨(market_empty_result cos0 cvEmpty 40 false (3/4) false Option.none).1,
    ?_⟩
  apply (market_empty_result cos0 cvEmpty 40 false (3/4) false Option.none).2
  intro j hj
  rw [List.mem_singleton] at hj
  subst hj
  have hs35 : (match_cv_job cos0 cvEmpty jobX false (3/4) false
      Option.none).map (fun r => r.score) = some 35 := by
    rw [match_cv_job_map_score]
    simp only [Option.getD_none,
      show defaultWeights "hard_required" = some (45/100) from rfl,
      show defaultWeights "hard_optional" = some (15/100) from rfl,
      show defaultWeights "soft" = some (10/100) from rfl,
      show defaultWeights "languages" = some (10/100) from rfl,
      show defaultWeights "description" = some (20/100) from rfl,
      Option.bind_eq_bind, Option.some_bind]
    have e1 : resolvedCoverage cos0 false (3/4)
        (norm_list cvEmpty.skills_hard)
        (norm_list jobX.skills_hard_required) = 0 := by
      have hcv : norm_list cvEmpty.skills_hard = [] := rfl
      have hjl : norm_list jobX.skills_hard_required = ["x"] := by decide
      rw [hcv, hjl]
      have hg : semGuard false ["x"] (["x"] : List String).toFinset
          (([] : List String)).toFinset = false := rfl
      unfold resolvedCoverage resolvedDetail
      rw [hg]
      simp [coverage]
    have e2 : resolvedCoverage cos0 false (3/4)
        (norm_list cvEmpty.skills_hard)
        (norm_list jobX.skills_hard_optional) = 1 :=
      resolvedCoverage_full _ _ _ _ _ (by decide)
    have e3 : coverage (norm_list cvEmpty.skills_soft).toFinset
        (norm_list jobX.skills_soft).toFinset = 1 :=
      coverage_full _ _ (by decide)
    have e4 : resolvedCoverage cos0 false (3/4)
        (norm_list cvEmpty.languages)
        (norm_list jobX.languages_required) = 1 :=
      resolvedCoverage_full _ _ _ _ _ (by decide)
    rw [e1, e2, e3, e4]
    rw [show ((45:ℚ)/100 * 0 + 15/100 * 1 + 10/100 * 1 + 10/100 * 1
        + 20/100 * (if (false : Bool) = true then semantic_similarity_text cos0
          (norm_text cvEmpty.text) (norm_text jobX.description) else 0)) * 100
        = ((35:ℤ):ℚ) from by norm_num, round1_int]
    norm_num
  cases hm : match_cv_job cos0 cvEmpty jobX false (3/4) false Option.none with
  | none =>
    rw [hm] at hs35
    simp at hs35
  | some m =>
    rw [hm, Option.map_some'] at hs35
    simp only [Option.some.injEq] at hs35
    exact ⟨m, rfl, by rw [hs35]; norm_num⟩

/-- Every row kept by the market loop scored at least min_score. -/
theorem marketLoop_scores (cos : String → String → ℚ) (cv : CVInput)
    (ms : ℚ) (us : Bool) (st : ℚ) (uds : Bool)
    (wa : Option (String → Option ℚ)) :
    ∀ (jobs : List JobInput) (res : List MarketRow),
      marketLoop cos cv ms us st uds wa jobs = some res →
      ∀ r ∈ res, ms ≤ r.result.score := by
  intro jobs
  induction jobs with
  | nil =>
    intro res h r hr
    simp only [marketLoop, Option.some.injEq] at h
    subst h
    exact absurd hr (by simp)
  | cons j rest ih =>
    intro res h r hr
    simp only [marketLoop, Option.bind_eq_bind] at h
    cases hm : match_cv_job cos cv j us st uds wa with
    | none =>
      rw [hm] at h
      simp at h
    | some m =>
      rw [hm, Option.some_bind] at h
      cases hloop : marketLoop cos cv ms us st uds wa rest with
      | none =>
        rw [hloop] at h
        simp at h
      | some tail =>
        rw [hloop, Option.some_bind] at h
        by_cases hsc : ms ≤ m.score
        · rw [if_pos hsc] at h
          simp only [Option.some.injEq] at h
          subst h
          rcases List.mem_cons.mp hr with h1 | h1
          · subst h1
            exact hsc
          · exact ih tail hloop r h1
        · rw [if_neg hsc] at h
          simp only [Option.some.injEq] at h
          subst h
          exact ih _ hloop r hr

/-- C8: every row of a market result reached min_score, and the rows
are sorted descending by the three-level key
(score, hard_required_coverage, description_similarity). -/
theorem market_filtered_and_sorted :
    ∀ (cos : String → String → ℚ) (cv : CVInput) (jobs : List JobInput)
      (ms : ℚ) (us : Bool) (st : ℚ) (uds : Bool)
      (wa : Option (String → Option ℚ)) (rows : List MarketRow),
      match_cv_market cos cv jobs ms us st uds wa = some rows →
      (∀ r ∈ rows, ms ≤ r.result.score) ∧ List.Sorted rowGE rows := by
  intro cos cv jobs ms us st uds wa rows h
  unfold match_cv_market at h
  simp only [Option.bind_eq_bind] at h
  cases hloop : marketLoop cos cv ms us st uds wa jobs with
  | none =>
    rw [hloop] at h
    simp at h
  | some res =>
    rw [hloop, Option.some_bind] at h
    by_cases hres : res.isEmpty
    · rw [if_pos hres] at h
      simp only [Option.some.injEq] at h
      subst h
      exact ⟨fun r hr => absurd hr (by simp), List.sorted_nil⟩
    · rw [if_neg hres] at h
      simp only [Option.some.injEq] at h
      subst h
      constructor
      · intro r hr
        have hmem : r ∈ res :=
          (List.perm_insertionSort rowGE res).mem_iff.mp hr
        exact marketLoop_scores cos cv ms us st uds wa jobs res hloop r hmem
      · exact List.sorted_insertionSort rowGE res

/-- Concrete evaluation of match_cv_job for the all-empty CV and job:
every category is vacuously covered and the score is 80. -/
theorem match_empty_eval :
    match_cv_job cos0 cvEmpty jobEmpty true (3/4) false Option.none
      = some resultEmpty := by
  unfold match_cv_job
  simp only [Option.getD_none,
    show defaultWeights "hard_required" = some (45/100) from rfl,
    show defaultWeights "hard_optional" = some (15/100) from rfl,
    show defaultWeights "soft" = some (10/100) from rfl,
    show defaultWeights "languages" = some (10/100) from rfl,
    show defaultWeights "description" = some (20/100) from rfl,
    Option.bind_eq_bind, Option.some_bind]
  have e1 : resolvedCoverage cos0 true (3/4) (norm_list cvEmpty.skills_hard)
      (norm_list jobEmpty.skills_hard_required) = 1 :=
    resolvedCoverage_full _ _ _ _ _ (by decide)
  have e2 : resolvedCoverage cos0 true (3/4) (norm_list cvEmpty.skills_hard)
      (norm_list jobEmpty.skills_hard_optional) = 1 :=
    resolvedCoverage_full _ _ _ _ _ (by decide)
  have e3 : coverage (norm_list cvEmpty.skills_soft).toFinset
      (norm_list jobEmpty.skills_soft).toFinset = 1 :=
    coverage_full _ _ (by decide)
  have e4 : resolvedCoverage cos0 true (3/4) (norm_list cvEmpty.languages)
      (norm_list jobEmpty.languages_required) = 1 :=
    resolvedCoverage_full _ _ _ _ _ (by decide)
  have em0 : ∀ cvl : List String,
      resolvedMissing cos0 true (3/4) cvl ([] : List String) = [] := by
    intro cvl
    unfold resolvedMissing resolvedDetail semGuard
    simp [setToList]
  have em1 : resolvedMissing cos0 true (3/4) (norm_list cvEmpty.skills_hard)
      (norm_list jobEmpty.skills_hard_required) = [] := by
    rw [show norm_list jobEmpty.skills_hard_required = ([] : List String)
      from rfl]
    exact em0 _
  have em2 : resolvedMissing cos0 true (3/4) (norm_list cvEmpty.skills_hard)
      (norm_list jobEmpty.skills_hard_optional) = [] := by
    rw [show norm_list jobEmpty.skills_hard_optional = ([] : List String)
      from rfl]
    exact em0 _
  have em3 : resolvedMissing cos0 true (3/4) (norm_list cvEmpty.languages)
      (norm_list jobEmpty.languages_required) = [] := by
    rw [show norm_list jobEmpty.languages_required = ([] : List String)
      from rfl]
    exact em0 _
  have hscore : round1 (((45:ℚ)/100 * 1 + 15/100 * 1 + 10/100 * 1
      + 10/100 * 1 + 20/100 * (if (false : Bool) = true then
        semantic_similarity_text cos0 (norm_text cvEmpty.text)
          (norm_text jobEmpty.description) else 0)) * 100) = 80 := by
    rw [show ((45:ℚ)/100 * 1 + 15/100 * 1 + 10/100 * 1 + 10/100 * 1
        + 20/100 * (if (false : Bool) = true then semantic_similarity_text cos0
          (norm_text cvEmpty.text) (norm_text jobEmpty.description) else 0))
        * 100 = ((80:ℤ):ℚ) from by norm_num, round1_int]
    norm_num
  have hr2 : round2 (1:ℚ) = 1 := by
    rw [show (1:ℚ) = (((1:ℤ)):ℚ) from by norm_num, round2_int]
  have hr3 : round3 (if (false : Bool) = true then
      semantic_similarity_text cos0 (norm_text cvEmpty.text)
        (norm_text jobEmpty.description) else 0) = 0 := by
    simp [round3]
  have hsoftm : sortDedup (setToList
      ((norm_list jobEmpty.skills_soft).toFinset
        \ (norm_list cvEmpty.skills_soft).toFinset)) = [] := by
    rw [show norm_list jobEmpty.skills_soft = ([] : List String) from rfl]
    simp [setToList, sortDedup]
  have hlangm : sortDedup (setToList
      ((norm_list jobEmpty.languages_optional).toFinset
        \ (norm_list cvEmpty.languages).toFinset)) = [] := by
    rw [show norm_list jobEmpty.languages_optional = ([] : List String)
      from rfl]
    simp [setToList, sortDedup]
  have hsd : sortDedup ([] : List String) = [] := by
    simp [sortDedup]
  rw [e1, e2, e3, e4, em1, em2, em3, hscore, hr2, hr3, hsoftm, hlangm, hsd]
  rfl

/-- Concrete evaluation of match_cv_market on one passing job. -/
theorem market_single_eval :
    match_cv_market cos0 cvEmpty [jobEmpty] 40 true (3/4) false Option.none
      = some [rowEmpty] := by
  have hloop : marketLoop cos0 cvEmpty 40 true (3/4) false Option.none
      [jobEmpty] = some [rowEmpty] := by
    simp only [marketLoop, match_empty_eval, Option.bind_eq_bind,
      Option.some_bind]
    rw [if_pos (show (40:ℚ) ≤ resultEmpty.score from by
      simp only [resultEmpty]; norm_num)]
    rfl
  unfold match_cv_market
  rw [hloop]
  rfl

/-- Witness for C8: the single-row market result passes the filter and
is sorted. -/
theorem market_filtered_and_sorted_check :
    match_cv_market cos0 cvEmpty [jobEmpty] 40 true (3/4) false Option.none
      = some [rowEmpty] ∧
    40 ≤ rowEmpty.result.score ∧ List.Sorted rowGE [rowEmpty] := by
  refine ⟨market_single_eval, ?_, ?_⟩
  · exact (market_filtered_and_sorted cos0 cvEmpty [jobEmpty] 40 true (3/4)
      false Option.none [rowEmpty] market_single_eval).1 rowEmpty (by simp)
  · exact (market_filtered_and_sorted cos0 cvEmpty [jobEmpty] 40 true (3/4)
      false Option.none [rowEmpty] market_single_eval).2

/-- Witness for C10 at a concrete job list with an unmatched item. -/
theorem semantic_overlap_partition_check :
    ([PyVal.str "b"].filterMap normItem ≠ []) ∧
    ((semantic_overlap cos0 [.str "a"] [.str "b"] (3/4)).matched.Sublist
        ([PyVal.str "b"].filterMap normItem) ∧
      (semantic_overlap cos0 [.str "a"] [.str "b"] (3/4)).missing.Sublist
        ([PyVal.str "b"].filterMap normItem) ∧
      ((semantic_overlap cos0 [.str "a"] [.str "b"] (3/4)).matched
        ++ (semantic_overlap cos0 [.str "a"] [.str "b"] (3/4)).missing).Perm
        ([PyVal.str "b"].filterMap normItem) ∧
      (semantic_overlap cos0 [.str "a"] [.str "b"] (3/4)).coverage
        = round2
            (((semantic_overlap cos0 [.str "a"] [.str "b"] (3/4)).matched.length : ℚ)
              / (([PyVal.str "b"].filterMap normItem).length : ℚ))) :=
  ⟨by decide, semantic_overlap_partition cos0 [.str "a"] [.str "b"] (3/4)
    (by decide)⟩

end JobMarket
